import Mathlib

/-!
# Verification of the symconstraints deduction engine

A shallow embedding of `symconstraints/constraints.py` and
`symconstraints/operator_mapping.py`, together with a model of the narrow
symbolic-algebra interface the package consumes from sympy
(`solveset`, `Set.intersect`, `Set.as_relational`, `simplify_logic`),
restricted to relations that are linear in the solved variable over the
real domain — the shapes exercised by the repository's own doctests and
the properties checked here.
-/

namespace SymC

abbrev Var := String

/-- Character-list comparison used for the canonical ordering of
variable names (the usual lexicographic order on code points). -/
def strLtAux : List Char → List Char → Bool
  | [], [] => false
  | [], _ :: _ => true
  | _ :: _, [] => false
  | c :: cs, d :: ds =>
    if c.val.toNat < d.val.toNat then true
    else if d.val.toNat < c.val.toNat then false
    else strLtAux cs ds

/-- Lexicographic order on variable names. -/
def strLt (s1 s2 : Var) : Bool := strLtAux s1.data s2.data

/-- A symbolic linear expression over rational coefficients, kept in a
canonical form: `coeffs` is sorted strictly by variable name and holds no
zero coefficients.  This models the sympy `Expr` values that flow through
the deduction engine (all of which are affine in the repository's
doctests and tests). -/
structure LinExpr where
  coeffs : List (Var × ℚ)
  const : ℚ
deriving DecidableEq

/-- Insert one coefficient into a canonical coefficient list, adding
coefficients of equal variables and dropping resulting zeros. -/
def insertCoeff (x : Var × ℚ) : List (Var × ℚ) → List (Var × ℚ)
  | [] => [x]
  | y :: ys =>
    if strLt x.1 y.1 then x :: y :: ys
    else if strLt y.1 x.1 then y :: insertCoeff x ys
    else
      let c := x.2 + y.2
      if c = 0 then ys else (x.1, c) :: ys

/-- Merge two canonical coefficient lists by repeated insertion. -/
def mergeCoeffs (xs ys : List (Var × ℚ)) : List (Var × ℚ) :=
  xs.foldr insertCoeff ys

/-- The expression consisting of a single variable. -/
def LinExpr.ofVar (v : Var) : LinExpr := ⟨[(v, 1)], 0⟩

/-- A constant expression. -/
def LinExpr.ofConst (q : ℚ) : LinExpr := ⟨[], q⟩

/-- Addition of linear expressions (models sympy `Add`). -/
def LinExpr.add (e1 e2 : LinExpr) : LinExpr :=
  ⟨mergeCoeffs e1.coeffs e2.coeffs, e1.const + e2.const⟩

/-- Multiplication by a rational constant (models sympy `Mul` by a number). -/
def LinExpr.smul (q : ℚ) (e : LinExpr) : LinExpr :=
  if q = 0 then ⟨[], 0⟩
  else ⟨e.coeffs.map (fun p => (p.1, q * p.2)), q * e.const⟩

/-- Subtraction of linear expressions. -/
def LinExpr.sub (e1 e2 : LinExpr) : LinExpr := e1.add (e2.smul (-1))

/-- Coefficient of a variable in a linear expression. -/
def LinExpr.coeffOf (e : LinExpr) (v : Var) : ℚ := (e.coeffs.lookup v).getD 0

/-- The expression with the given variable removed. -/
def LinExpr.dropVar (e : LinExpr) (v : Var) : LinExpr :=
  ⟨e.coeffs.filter (fun p => p.1 ≠ v), e.const⟩

/-- Free variables of a linear expression (sorted, duplicate-free by
canonicity).  Models sympy `free_symbols`. -/
def LinExpr.freeVars (e : LinExpr) : List Var := e.coeffs.map Prod.fst

/-- Value of a linear expression under an assignment. -/
def LinExpr.eval (ρ : Var → ℚ) (e : LinExpr) : ℚ :=
  e.coeffs.foldr (fun p acc => p.2 * ρ p.1 + acc) e.const

/-- Insert a variable into a sorted duplicate-free list of variables. -/
def insertVar (v : Var) : List Var → List Var
  | [] => [v]
  | x :: xs =>
    if v = x then x :: xs
    else if strLt v x then v :: x :: xs
    else x :: insertVar v xs

/-- Sort a list of variables and remove duplicates.  This is the canonical
representation used for sympy `frozenset[Symbol]` keys. -/
def sortDedup (l : List Var) : List Var := l.foldr insertVar []

/-- A sympy relational node: `Eq`, `Lt`, `Le`, `Gt`, `Ge` applied to two
expressions.  Construction through the smart constructors below models
sympy's automatic evaluation of relations whose difference is a known
constant. -/
inductive SRel
  | eqR (l r : LinExpr)
  | ltR (l r : LinExpr)
  | leR (l r : LinExpr)
  | gtR (l r : LinExpr)
  | geR (l r : LinExpr)
deriving DecidableEq

/-- A boolean atom: a relational node or a logical constant.  `aunk`
stands for boolean values outside the modelled fragment. -/
inductive BAtom
  | relA (r : SRel)
  | atrue
  | afalse
  | aunk
deriving DecidableEq

/-- A disjunction branch as produced by sympy's `simplify_logic(...,
form="dnf")`: either a single atom or a conjunction (`And`) of atoms. -/
inductive BBranch
  | batom (a : BAtom)
  | bandBr (args : List BAtom)
deriving DecidableEq

/-- A sympy `Boolean` in the disjunctive-normal shapes the deduction
engine manipulates: an atom, a conjunction of atoms, or a disjunction of
branches.  `Constraints.__init__` only distinguishes `Or` nodes, `And`
nodes and everything else, so this fragment covers every shape the
engine inspects. -/
inductive BExpr
  | atomE (a : BAtom)
  | andE (args : List BAtom)
  | orE (args : List BBranch)
deriving DecidableEq

/-- Free variables of a relational atom. -/
def SRel.freeVarsS : SRel → List Var
  | .eqR l r | .ltR l r | .leR l r | .gtR l r | .geR l r =>
      sortDedup (l.freeVars ++ r.freeVars)

/-- Free variables of a boolean atom. -/
def BAtom.freeVarsA : BAtom → List Var
  | .relA r => r.freeVarsS
  | .atrue | .afalse | .aunk => []

/-- Free variables of a disjunction branch. -/
def BBranch.freeVarsBr : BBranch → List Var
  | .batom a => a.freeVarsA
  | .bandBr args => sortDedup (args.map BAtom.freeVarsA).flatten

/-- Free variables of a boolean expression, as a sorted duplicate-free
list.  Models `_get_basic_symbols` of `constraints.py` (the `frozenset`
of free `Symbol`s of a sympy `Basic`). -/
def BExpr.freeVarsB : BExpr → List Var
  | .atomE a => a.freeVarsA
  | .andE args => sortDedup (args.map BAtom.freeVarsA).flatten
  | .orE args => sortDedup (args.map BBranch.freeVarsBr).flatten

/-- Truth of a relational atom under an assignment. -/
def SRel.holdsS (ρ : Var → ℚ) : SRel → Bool
  | .eqR l r => l.eval ρ == r.eval ρ
  | .ltR l r => decide (l.eval ρ < r.eval ρ)
  | .leR l r => decide (l.eval ρ ≤ r.eval ρ)
  | .gtR l r => decide (r.eval ρ < l.eval ρ)
  | .geR l r => decide (r.eval ρ ≤ l.eval ρ)

/-- Truth of a boolean atom under an assignment (`aunk` never occurs in
evaluated positions). -/
def BAtom.holdsA (ρ : Var → ℚ) : BAtom → Bool
  | .relA r => r.holdsS ρ
  | .atrue => true
  | .afalse | .aunk => false

/-- Truth of a disjunction branch under an assignment. -/
def BBranch.holdsBr (ρ : Var → ℚ) : BBranch → Bool
  | .batom a => a.holdsA ρ
  | .bandBr args => args.all (BAtom.holdsA ρ)

/-- Truth of a boolean expression under an assignment. -/
def BExpr.holds (ρ : Var → ℚ) : BExpr → Bool
  | .atomE a => a.holdsA ρ
  | .andE args => args.all (BAtom.holdsA ρ)
  | .orE args => args.any (BBranch.holdsBr ρ)

/-- Smart `Lt` constructor: sympy evaluates `Lt(e1, e2)` to a logical
constant when `e1 - e2` is a known constant. -/
def mkLt (e1 e2 : LinExpr) : BAtom :=
  let d := e1.sub e2
  if d.coeffs = [] then (if d.const < 0 then .atrue else .afalse) else .relA (.ltR e1 e2)

/-- Smart `Le` constructor (see `mkLt`). -/
def mkLe (e1 e2 : LinExpr) : BAtom :=
  let d := e1.sub e2
  if d.coeffs = [] then (if d.const ≤ 0 then .atrue else .afalse) else .relA (.leR e1 e2)

/-- Smart `Gt` constructor (see `mkLt`). -/
def mkGt (e1 e2 : LinExpr) : BAtom :=
  let d := e1.sub e2
  if d.coeffs = [] then (if 0 < d.const then .atrue else .afalse) else .relA (.gtR e1 e2)

/-- Smart `Ge` constructor (see `mkLt`). -/
def mkGe (e1 e2 : LinExpr) : BAtom :=
  let d := e1.sub e2
  if d.coeffs = [] then (if 0 ≤ d.const then .atrue else .afalse) else .relA (.geR e1 e2)

/-- Smart `Eq` constructor (see `mkLt`). -/
def mkEq (e1 e2 : LinExpr) : BAtom :=
  let d := e1.sub e2
  if d.coeffs = [] then (if d.const = 0 then .atrue else .afalse) else .relA (.eqR e1 e2)

/-- Append an element to a list if not already present: the model of
adding to a Python `set`, which in this development is represented as an
insertion-ordered duplicate-free list. -/
def setAdd {α} [DecidableEq α] (l : List α) (x : α) : List α :=
  if x ∈ l then l else l ++ [x]

/-- sympy `And` construction on a list of atoms: drops `true`, collapses
to `false` when an argument is `false`, deduplicates, collapses a
singleton, and keeps the empty conjunction as `true`.  Argument order is
preserved (sympy stores `And` arguments in a canonical order; everywhere
this development reaches, that order agrees with construction order, as
witnessed by the repository's doctest output). -/
def mkAnd (args : List BAtom) : BExpr :=
  let args := (args.filter (· ≠ .atrue)).foldl setAdd []
  if .afalse ∈ args then .atomE .afalse
  else match args with
  | [] => .atomE .atrue
  | [x] => .atomE x
  | xs => .andE xs

/-- sympy `Or` construction on a list of atoms (see `mkAnd`). -/
def mkOrAtoms (args : List BAtom) : BExpr :=
  let args := (args.filter (· ≠ .afalse)).foldl setAdd []
  if .atrue ∈ args then .atomE .atrue
  else match args with
  | [] => .atomE .afalse
  | [x] => .atomE x
  | xs => .orE (xs.map .batom)

/-- An interval endpoint: `-oo`, `+oo` or a finite symbolic expression.
sympy represents infinities as `Expr` constants, so both infinite cases
satisfy `isinstance(end, Expr) and end.is_constant()`. -/
inductive Bnd
  | ninf
  | pinf
  | fin (e : LinExpr)
deriving DecidableEq

/-- `is_constant()` of an interval endpoint: infinities are constant,
a finite expression is constant exactly when it has no free symbols
(expressions are kept in canonical form). -/
def Bnd.isConstant : Bnd → Bool
  | .ninf | .pinf => true
  | .fin e => e.coeffs.isEmpty

/-- A non-compound sympy set: a `FiniteSet`, an `Interval` (`S.Reals` is
the interval `(-oo, oo)`, and sympy treats it as an `Interval` instance),
or an unmodelled set (`ConditionSet` etc.). -/
inductive BasicSet
  | finiteS (es : List LinExpr)
  | intervalS (lo hi : Bnd) (lopen ropen : Bool)
  | otherS
deriving DecidableEq

/-- A sympy set as consumed by the deduction engine: either a basic set
or an unevaluated `Intersection`/`Union` of basic sets (sympy flattens
nested compound sets, so compound arguments are basic). -/
inductive SymSet
  | basic (b : BasicSet)
  | interS (args : List BasicSet)
  | uniS (args : List BasicSet)
deriving DecidableEq

/-- The argument list of a set, used when compound sets are flattened
into an `Intersection` (an unreached `Union` argument degrades to an
unmodelled basic set). -/
def SymSet.toArgs : SymSet → List BasicSet
  | .basic b => [b]
  | .interS args => args
  | .uniS _ => [.otherS]

/-- Model of sympy `Set.intersect` on the shapes this development
reaches: the intersection of two distinct sets whose membership is
symbolically undecidable stays an unevaluated `Intersection` whose
arguments appear in application order (the order witnessed by the
repository's doctest, where the derived conjunction lists the
`FiniteSet` atom first), and intersecting a set with itself gives the
set back. -/
def SymSet.intersect (s1 s2 : SymSet) : SymSet :=
  if s1 = s2 then s1 else .interS (s1.toArgs ++ s2.toArgs)

/-- `as_relational` of a basic set with respect to a placeholder
variable `d`: a `FiniteSet` becomes the disjunction of equalities
`Eq(d, e)`, an `Interval` the conjunction of its endpoint comparisons
(comparisons against an infinite endpoint evaluate to `true` for a real
placeholder and are absorbed by `And`). -/
def BasicSet.asRelationalB (b : BasicSet) (d : Var) : BExpr :=
  match b with
  | .finiteS es => mkOrAtoms (es.map (fun e => mkEq (LinExpr.ofVar d) e))
  | .intervalS lo hi lopen ropen =>
      let lower : List BAtom :=
        match lo with
        | .fin e => [if lopen then mkLt e (LinExpr.ofVar d) else mkLe e (LinExpr.ofVar d)]
        | _ => []
      let upper : List BAtom :=
        match hi with
        | .fin e => [if ropen then mkLt (LinExpr.ofVar d) e else mkLe (LinExpr.ofVar d) e]
        | _ => []
      mkAnd (lower ++ upper)
  | .otherS => .atomE .aunk

/-- Flatten the atoms of a conjunction of basic-set relationals; a
disjunctive or unmodelled conjunct puts the whole conjunction outside
the modelled fragment. -/
def andAtoms : List BExpr → Option (List BAtom)
  | [] => some []
  | .atomE a :: rest => (andAtoms rest).map (fun l => a :: l)
  | .andE args :: rest => (andAtoms rest).map (fun l => args ++ l)
  | .orE _ :: _ => none

/-- `as_relational` of a set with respect to a placeholder variable,
models sympy `Intersection.as_relational` (the `And` of its arguments'
relationals) and `Union.as_relational` (their `Or`). -/
def SymSet.asRelational (s : SymSet) (d : Var) : BExpr :=
  match s with
  | .basic b => b.asRelationalB d
  | .interS args =>
      match andAtoms (args.map (fun b => b.asRelationalB d)) with
      | some atoms => mkAnd atoms
      | none => .atomE .aunk
  | .uniS args =>
      .orE (args.map (fun b =>
        match b.asRelationalB d with
        | .atomE a => .batom a
        | .andE l => .bandBr l
        | .orE _ => .batom .aunk))

/-- Model of sympy `simplify_logic(..., form="dnf")` on the boolean
shapes this development reaches: its inputs are already in disjunctive
normal form with distinct, non-complementary relational atoms, on which
the simplification is the identity. -/
def simplifyDnf (b : BExpr) : BExpr := b

/-- A symbolic representation of the sympy domain sets used by
`_assumption_domain` and `_get_symbol_domain`: the base sets, the two
sign intervals `Interval(0, oo)` and `Interval(-oo, 0)`, unevaluated
intersections, and relative complements (`domain.complement(result)` is
`result \ domain`). -/
inductive SymDom
  | complexes
  | reals
  | integers
  | nonneg
  | nonpos
  | interD (a b : SymDom)
  | complD (a b : SymDom)
deriving DecidableEq

/-- Membership semantics of a domain set, as a subset of the complex
numbers. -/
def SymDom.memD : SymDom → ℂ → Prop
  | .complexes, _ => True
  | .reals, z => z.im = 0
  | .integers, z => z.im = 0 ∧ ∃ n : ℤ, z.re = n
  | .nonneg, z => z.im = 0 ∧ 0 ≤ z.re
  | .nonpos, z => z.im = 0 ∧ z.re ≤ 0
  | .interD a b, z => a.memD z ∧ b.memD z
  | .complD a b, z => a.memD z ∧ ¬ b.memD z

/-- Model of `result.intersect(domain)` for the domain sets above: sympy
evaluates an intersection with `S.Complexes` (every other set here is
known to be a subset of the complex numbers) and an intersection of a
set with itself; other combinations are kept unevaluated.  Evaluation
only changes the representation, not the membership semantics. -/
def SymDom.intersectD : SymDom → SymDom → SymDom
  | .complexes, d => d
  | d, .complexes => d
  | d1, d2 => if d1 = d2 then d1 else .interD d1 d2

/-- Python dict `_assumption_domain` of `constraints.py`: the recognized
variable assumptions and their domain sets.  `positive` maps to
`Interval(0, oo)` and `negative` to `Interval(-oo, 0)`; sympy `Interval`
bounds are closed by default, so both intervals contain zero. -/
def assumption_domain : String → Option SymDom
  | "real" => some .reals
  | "complex" => some .complexes
  | "integer" => some .integers
  | "negative" => some .nonpos
  | "positive" => some .nonneg
  | _ => none

/-- One iteration of the `_get_symbol_domain` loop of `constraints.py`:
intersect with the recognized domain when the assumption is declared
true and remove the domain (`domain.complement(result)`) when declared
false; unrecognized assumptions are ignored.  The symbol's assumption
dictionary is modelled as an association list in iteration order (the
resulting set is order-independent). -/
def domStep (result : SymDom) (p : String × Bool) : SymDom :=
  match assumption_domain p.1 with
  | none => result
  | some dom => if p.2 then result.intersectD dom else .complD result dom

/-- `_get_symbol_domain`, as the fold of `domStep` over the assumption
items starting from `S.Complexes`. -/
def get_symbol_domain (asms : List (String × Bool)) : SymDom :=
  asms.foldl domStep .complexes

/-- The assumption dictionary of a symbol declared with `real=True` (the
default of `symconstraints.symbols`), restricted to the keys
`_assumption_domain` recognizes: sympy's assumption closure of
`real=True` determines `real=True` and `complex=True` and leaves
`integer`, `positive` and `negative` undetermined. -/
def realAssumptions : List (String × Bool) := [("real", true), ("complex", true)]

/-- The classification kind of `_DummyRelation`: the Python string
literals `"="`, `"<"`, `">"`. -/
inductive RelKind
  | eqK
  | ltK
  | gtK
deriving DecidableEq

/-- The classified form of a relation over the placeholder: the
`_DummyRelation` record `(rel, expr, strict)`.  `expr` is an interval
endpoint because the `">"`/`"<"` branches store `dummy_set.start` /
`dummy_set.end`, which may be infinite. -/
structure DRel where
  rel : RelKind
  expr : Bnd
  strict : Bool
deriving DecidableEq

/-- The `while` loop of `_DummyRelation.__init__`: while the set is an
`Intersection`/`Union` with `len(args[1]) == 1`, replace it by
`args[1]`.  Only a `FiniteSet` among the reached set shapes supports
`len`, and the replacement is a basic set, so the loop runs at most
once; a compound set whose second argument is not a one-element
`FiniteSet` leaves the loop (for a second argument supporting `len`) or
is outside the modelled fragment. -/
def SymSet.unwrap : SymSet → SymSet
  | .interS args =>
      match args[1]? with
      | some (BasicSet.finiteS es) =>
          if es.length = 1 then .basic (.finiteS es) else .interS args
      | _ => .interS args
  | .uniS args =>
      match args[1]? with
      | some (BasicSet.finiteS es) =>
          if es.length = 1 then .basic (.finiteS es) else .uniS args
      | _ => .uniS args
  | s => s

/-- The classification chain of `_DummyRelation.__init__` after the
unwrap loop: a one-element `FiniteSet` is an equality; an `Interval`
whose end is constant is `">"` with the start as expression and the
left-openness as strictness, otherwise one whose start is constant is
`"<"` with the end as expression and the right-openness as strictness;
anything else raises `ValueError` (modelled as `Except.error`). -/
def classifyShape : SymSet → Except String DRel
  | .basic (.finiteS [e]) => .ok ⟨.eqK, .fin e, false⟩
  | .basic (.intervalS lo hi lopen ropen) =>
      if hi.isConstant then .ok ⟨.gtK, lo, lopen⟩
      else if lo.isConstant then .ok ⟨.ltK, hi, ropen⟩
      else .error "Could not analyze relation"
  | _ => .error "Could not analyze relation"

/-- `_DummyRelation` classification of an already-solved set: the unwrap
loop followed by the classification chain. -/
def classifySet (s : SymSet) : Except String DRel :=
  classifyShape s.unwrap

/-- The real line as a set (`S.Reals` is the interval `(-oo, oo)`). -/
def realsSet : SymSet := .basic (.intervalS .ninf .pinf true true)

/-- Solution set of `d < 0` (strict) or `d ≤ 0` (non-strict) for `v`
over the reals, where `d` is linear in `v` with nonzero coefficient:
the sympy result is a half-line whose infinite end is open. -/
def solveLinIneq (d : LinExpr) (v : Var) (strict : Bool) : SymSet :=
  let k := d.coeffOf v
  if k = 0 then .basic .otherS
  else
    let e := (d.dropVar v).smul (-(1/k))
    if 0 < k then .basic (.intervalS .ninf (.fin e) true strict)
    else .basic (.intervalS (.fin e) .pinf strict true)

/-- Solution set of a relational atom for `v` over the reals (linear
case). -/
def solvesetRel (r : SRel) (v : Var) : SymSet :=
  match r with
  | .eqR l rr =>
      let d := l.sub rr
      let k := d.coeffOf v
      if k = 0 then .basic .otherS
      else .basic (.finiteS [(d.dropVar v).smul (-(1/k))])
  | .ltR l rr => solveLinIneq (l.sub rr) v true
  | .leR l rr => solveLinIneq (l.sub rr) v false
  | .gtR l rr => solveLinIneq (rr.sub l) v true
  | .geR l rr => solveLinIneq (rr.sub l) v false

/-- Model of sympy `solveset(f, v, domain)` for the shapes this
development reaches: relations linear in the solved variable over the
real domain.  Boolean `true` solves to the whole domain and boolean
`false` to the empty set, as in sympy; anything else (conjunctions,
disjunctions, non-real domains, a relation not mentioning `v`) degrades
to the unsolved marker, on which every consumer degrades gracefully. -/
def solveset (f : BExpr) (v : Var) (dom : SymDom) : SymSet :=
  match dom with
  | .reals =>
      match f with
      | .atomE (.relA r) => solvesetRel r v
      | .atomE .atrue => realsSet
      | .atomE .afalse => .basic (.finiteS [])
      | _ => .basic .otherS
  | _ => .basic .otherS

/-- `_DummyRelation(relation, dummy)`: solve the atom for the placeholder
over the placeholder's domain and classify the solution set. -/
def dummyRelation (a : BAtom) (dummy : Var) (dom : SymDom) : Except String DRel :=
  classifySet (solveset (.atomE a) dummy dom)

/-- All ordered pairs of distinct positions, in iteration order: Python
`itertools.combinations(l, 2)`. -/
def combinations2 {α} : List α → List (α × α)
  | [] => []
  | x :: xs => (xs.map (fun y => (x, y))) ++ combinations2 xs

/-- sympy `Lt`/`Le` applied to two classified expressions, which may be
infinite interval endpoints: a comparison with an infinity evaluates to
a boolean constant (the finite side is a real expression). -/
def ltLeAtom (strict : Bool) (b1 b2 : Bnd) : BAtom :=
  match b1, b2 with
  | .fin e1, .fin e2 => if strict then mkLt e1 e2 else mkLe e1 e2
  | .ninf, .ninf | .pinf, .pinf => if strict then .afalse else .atrue
  | .ninf, _ | _, .pinf => .atrue
  | _, _ => .afalse

/-- sympy `Gt`/`Ge` applied to two classified expressions (see
`ltLeAtom`). -/
def gtGeAtom (strict : Bool) (b1 b2 : Bnd) : BAtom :=
  match b1, b2 with
  | .fin e1, .fin e2 => if strict then mkGt e1 e2 else mkGe e1 e2
  | .ninf, .ninf | .pinf, .pinf => if strict then .afalse else .atrue
  | .pinf, _ | _, .ninf => .atrue
  | _, _ => .afalse

/-- sympy `Eq` applied to two classified expressions (see `ltLeAtom`). -/
def eqAtom (b1 b2 : Bnd) : BAtom :=
  match b1, b2 with
  | .fin e1, .fin e2 => mkEq e1 e2
  | .ninf, .ninf | .pinf, .pinf => .atrue
  | _, _ => .afalse

/-- The elimination table of `_and_dummy_to_constraints`: the Python
`match` on `(relation1.rel, relation2.rel)`, in clause order.  Two
equalities emit `Eq(expr1, expr2)`; a `">"`-or-`"="` first and
`"<"`-or-`"="` second emit `Lt`/`Le(expr1, expr2)` with `Lt` when either
side is strict; the mirrored case emits `Gt`/`Ge`; any other pair emits
nothing. -/
def elimPair (r1 r2 : DRel) : Option BAtom :=
  match r1.rel, r2.rel with
  | .eqK, .eqK => some (eqAtom r1.expr r2.expr)
  | .gtK, .ltK | .gtK, .eqK | .eqK, .ltK =>
      some (ltLeAtom (r1.strict || r2.strict) r1.expr r2.expr)
  | .ltK, .gtK | .ltK, .eqK | .eqK, .gtK =>
      some (gtGeAtom (r1.strict || r2.strict) r1.expr r2.expr)
  | _, _ => none

/-- The result of `_and_dummy_to_constraints`: the emitted constraint
set (insertion-ordered, duplicate-free) and the warnings issued for
atoms whose classification raised `ValueError`. -/
structure AndDummyResult where
  constraints : List BAtom
  warnings : List String
deriving DecidableEq

/-- `_and_dummy_to_constraints(and_relation, dummy)`: classify each
conjunct (an unclassifiable conjunct is warned about and skipped), then
apply the elimination table to every pair of classified conjuncts in
`combinations` order, collecting the emitted relations into a set. -/
def andDummyToConstraints (args : List BAtom) (dummy : Var) (dom : SymDom) : AndDummyResult :=
  let classified := args.map (fun a => dummyRelation a dummy dom)
  let useful := classified.filterMap (fun c => c.toOption)
  let warnings := classified.filterMap
    (fun c => match c with | .error m => some m | .ok _ => none)
  let cons := (combinations2 useful).foldl
    (fun acc p =>
      match elimPair p.1 p.2 with
      | some c => setAdd acc c
      | none => acc) []
  ⟨cons, warnings⟩

/-- The `and_operations` accumulation of the `Or` branch of
`Constraints.__init__`: walk the disjunction's branches, extending the
list with each conjunction branch's eliminated constraints; a branch
that is not a conjunction resets the list to empty and breaks. -/
def collectOrBranches (args : List BBranch) (dummy : Var) (dom : SymDom) : List BAtom :=
  go args []
where
  go : List BBranch → List BAtom → List BAtom
  | [], acc => acc
  | .bandBr aargs :: rest, acc =>
      go rest (acc ++ (andDummyToConstraints aargs dummy dom).constraints)
  | .batom _ :: _, _ => []

/-- The emission decision of the `Or` branch of `Constraints.__init__`:
when the accumulated `and_operations` list is nonempty the new
constraint `Or(*and_operations)` is emitted, otherwise nothing is. -/
def orEmit (args : List BBranch) (dummy : Var) (dom : SymDom) : Option BExpr :=
  let ops := collectOrBranches args dummy dom
  if 0 < ops.length then some (mkOrAtoms ops) else none

/-- `symconstraints.operation.Validation`: a frozen dataclass of the
member-variable set (`keys`, canonical sorted list) and the relation set
(`operations`, insertion-ordered duplicate-free list). -/
structure Validation where
  keys : List Var
  operations : List BExpr
deriving DecidableEq

/-- `symconstraints.operation.Imputation`: a frozen dataclass of the
source-variable set, the target variable and the imputing expression. -/
structure Imputation where
  keys : List Var
  target_key : Var
  operation : LinExpr
deriving DecidableEq

/-- The working state of `Constraints.__init__`: `symbol_to_sets`
(`defaultdict(set)` keyed by symbol), `symbols_to_constraints`
(`defaultdict(set)` keyed by free-variable set) and the imputation
list.  Python dicts preserve key insertion order and the sets are
modelled as insertion-ordered duplicate-free lists. -/
structure InitState where
  symbolToSets : List (Var × List SymSet)
  symbolsToCons : List (List Var × List BExpr)
  imputations : List Imputation
deriving DecidableEq

/-- `symbol_to_sets[symbol].add(symbol_set)`. -/
def addToSets (m : List (Var × List SymSet)) (v : Var) (s : SymSet) :
    List (Var × List SymSet) :=
  match m with
  | [] => [(v, [s])]
  | (k, ss) :: rest =>
      if k = v then (k, setAdd ss s) :: rest else (k, ss) :: addToSets rest v s

/-- `symbols_to_constraints[_get_basic_symbols(constraint)].add(constraint)`:
every insertion into the grouping map is keyed by the inserted
constraint's own free-variable set. -/
def addCon (m : List (List Var × List BExpr)) (c : BExpr) :
    List (List Var × List BExpr) :=
  match m with
  | [] => [(c.freeVarsB, [c])]
  | (k, cs) :: rest =>
      if k = c.freeVarsB then (k, setAdd cs c) :: rest else (k, cs) :: addCon rest c

/-- `Constraints._add_possible_imputation_from_set`: when the solution
set is a one-element `FiniteSet` whose element is an expression, record
`Imputation(free_symbols(expr), target, expr)` by appending to the
imputation list. -/
def addImputFromSet (imps : List Imputation) (s : SymSet) (target : Var) :
    List Imputation :=
  match s with
  | .basic (.finiteS [e]) => imps ++ [⟨e.freeVars, target, e⟩]
  | _ => imps

/-- Pass 1 of `Constraints.__init__` for one input constraint: group it
by its free-variable set, then solve it for each of its variables over
that variable's domain, recording the solution set and a possible
imputation.  `asmOf` gives each symbol's assumption dictionary. -/
def pass1Step (asmOf : Var → List (String × Bool)) (st : InitState) (c : BExpr) :
    InitState :=
  c.freeVarsB.foldl
    (fun st v =>
      let sset := solveset c v (get_symbol_domain (asmOf v))
      { st with
        symbolToSets := addToSets st.symbolToSets v sset
        imputations := addImputFromSet st.imputations sset v })
    { st with symbolsToCons := addCon st.symbolsToCons c }

/-- The placeholder name used for `Dummy(**symbol.assumptions0)`:
sympy dummies are fresh, so the name never collides with a declared
symbol (the declared symbols of this development never start with an
underscore). -/
def dummyName : Var := "_d"

/-- Pass 2 of `Constraints.__init__` for one unordered pair of solution
sets of the same symbol: intersect them, re-relate the intersection over
a fresh placeholder with the symbol's assumptions, simplify to DNF, and
process the `Or`/`And` result — the `Or` branch can emit one disjunctive
constraint, the `And` branch emits the eliminated constraints and
re-solves each of them once per free variable for further imputations. -/
def pass2Pair (asmOf : Var → List (String × Bool)) (st : InitState) (v : Var)
    (s1 s2 : SymSet) : InitState :=
  match simplifyDnf ((s1.intersect s2).asRelational dummyName) with
  | .orE args =>
      match orEmit args dummyName (get_symbol_domain (asmOf v)) with
      | some c => { st with symbolsToCons := addCon st.symbolsToCons c }
      | none => st
  | .andE args =>
      (andDummyToConstraints args dummyName (get_symbol_domain (asmOf v))).constraints.foldl
        (fun st ca =>
          (BExpr.atomE ca).freeVarsB.foldl
            (fun st cs =>
              let cset := solveset (BExpr.atomE ca) cs (get_symbol_domain (asmOf cs))
              { st with imputations := addImputFromSet st.imputations cset cs })
            { st with symbolsToCons := addCon st.symbolsToCons (BExpr.atomE ca) })
        st
  | _ => st

/-- Pass 2 of `Constraints.__init__`: for every symbol, process every
unordered pair of its recorded solution sets. -/
def pass2 (asmOf : Var → List (String × Bool)) (st : InitState) : InitState :=
  st.symbolToSets.foldl
    (fun st p =>
      (combinations2 p.2).foldl (fun st q => pass2Pair asmOf st p.1 q.1 q.2) st)
    st

/-- The result of `Constraints.__init__`: the `_validations` list built
from the grouping map and the `_imputations` list. -/
structure ConstraintsResult where
  validations : List Validation
  imputations : List Imputation
deriving DecidableEq

/-- `Constraints.__init__`: Pass 1 over the input constraints, Pass 2
over the recorded solution sets, then assembly of one `Validation` per
grouping-map entry. -/
def constraintsInit (asmOf : Var → List (String × Bool)) (cons : List BExpr) :
    ConstraintsResult :=
  let st0 : InitState := ⟨[], [], []⟩
  let st1 := cons.foldl (pass1Step asmOf) st0
  let st2 := pass2 asmOf st1
  ⟨st2.symbolsToCons.map (fun p => ⟨p.1, p.2⟩), st2.imputations⟩

/-- `Constraints.get_validations`. -/
def get_validations (r : ConstraintsResult) : List Validation := r.validations

/-- `Constraints.get_imputations`. -/
def get_imputations (r : ConstraintsResult) : List Imputation := r.imputations

/-- A Python string-keyed mapping with optional values: an entry bound
to `none` models a key mapped to Python `None`, and an absent entry an
absent key. -/
abbrev OMap := List (Var × Option ℚ)

/-- `mapping.get(str(k))`: `None` both for an absent key and for a key
bound to `None`. -/
def mget (m : OMap) (k : Var) : Option ℚ :=
  match m.lookup k with
  | some (some x) => some x
  | _ => none

/-- The assignment used to substitute the mapped values into a relation
(only member variables are ever read, and in the evaluated branch all of
them are present). -/
def mrho (m : OMap) : Var → ℚ := fun k => (mget m k).getD 0

/-- `symconstraints.operator_mapping.ValidationError`: the values
relevant to the validation and the unsatisfied relations. -/
structure ValidationError where
  values : List (Var × Option ℚ)
  unsatisfied_booleans : List BExpr
deriving DecidableEq

/-- `validate_mapping` of `operator_mapping.py` for a `Validation`
operand: build `values` from the member keys, return silently when any
member key's `mapping.get` is `None`, otherwise evaluate every relation
under the mapped values and raise a `ValidationError` (modelled as
`some`) carrying exactly the unsatisfied relations and the values. -/
def validate_mapping (v : Validation) (m : OMap) : Option ValidationError :=
  let values := v.keys.map (fun k => (k, mget m k))
  if v.keys.any (fun k => (mget m k).isNone) then none
  else
    let unsatisfied := v.operations.filter (fun op => !(op.holds (mrho m)))
    if unsatisfied.isEmpty then none else some ⟨values, unsatisfied⟩

/-! ## Concrete objects used by the explicit claims -/

/-- The symbol `a` as an expression. -/
def aE : LinExpr := LinExpr.ofVar "a"

/-- The symbol `b` as an expression. -/
def bE : LinExpr := LinExpr.ofVar "b"

/-- The symbol `c` as an expression. -/
def cE : LinExpr := LinExpr.ofVar "c"

/-- The input relation `Eq(a, 2*b)`. -/
def conA2B : BExpr := .atomE (.relA (.eqR aE (bE.smul 2)))

/-- The input relation `c < b + 3`. -/
def conCltB3 : BExpr := .atomE (.relA (.ltR cE (bE.add (LinExpr.ofConst 3))))

/-- The assumption map for the doctest symbols: every symbol is declared
real (the `symconstraints.symbols` default). -/
def realAsm : Var → List (String × Bool) := fun _ => realAssumptions

/-- The relation the deduction engine derives from
`{Eq(a, 2*b), c < b + 3}` for the variable set `{a, c}`:
`Gt(a/2, c - 3)`. -/
def derivedAC : BExpr :=
  .atomE (.relA (.gtR ⟨[("a", 1/2)], 0⟩ ⟨[("c", 1)], -3⟩))

/-- Modelled from the spec's words: the relation `A/2 > C − 3` named by
the closure-correctness property, built from the spec's expression
syntax. -/
def specHalfAGtCm3 : BExpr :=
  .atomE (.relA (.gtR (aE.smul (1/2)) (cE.sub (LinExpr.ofConst 3))))

unseal Rat.mul Rat.inv Rat.add Rat.sub in
/-- Claim C1: For the input relations `{A = 2B, C < B + 3}` over real
variables, the Validation set produced by `Constraints` contains the two
input groups `({a,b}, {A = 2B})` and `({b,c}, {C < B + 3})` and a
derived group over `{a, c}` whose relation is symbolically equivalent to
`A/2 > C − 3`: it has the same free-variable set and the same truth
value under every real assignment (hence the same solution set for
either pivot). -/
theorem c1_closure_correctness :
    Validation.mk ["a", "b"] [conA2B] ∈
      (constraintsInit realAsm [conA2B, conCltB3]).validations ∧
    Validation.mk ["b", "c"] [conCltB3] ∈
      (constraintsInit realAsm [conA2B, conCltB3]).validations ∧
    Validation.mk ["a", "c"] [derivedAC] ∈
      (constraintsInit realAsm [conA2B, conCltB3]).validations ∧
    derivedAC.freeVarsB = specHalfAGtCm3.freeVarsB ∧
    (∀ ρ : Var → ℚ, derivedAC.holds ρ = specHalfAGtCm3.holds ρ) ∧
    (∀ ρ : Var → ℚ, derivedAC.holds ρ = true ↔ ρ "c" - 3 < ρ "a" / 2) := by
  have hspec : specHalfAGtCm3 = derivedAC := by decide
  refine ⟨by decide, by decide, by decide, by rw [hspec], fun ρ => by rw [hspec], fun ρ => ?_⟩
  simp only [derivedAC, BExpr.holds, BAtom.holdsA, SRel.holdsS, LinExpr.eval,
    List.foldr, decide_eq_true_eq]
  constructor <;> intro h <;> linarith

/-! ## The grouping invariant (C2) -/

/-- The invariant of the grouping map `symbols_to_constraints`: every
stored relation's free-variable set equals its group key. -/
def ConsInv (m : List (List Var × List BExpr)) : Prop :=
  ∀ p ∈ m, ∀ r ∈ p.2, r.freeVarsB = p.1

theorem mem_setAdd {α} [DecidableEq α] {l : List α} {x y : α}
    (h : y ∈ setAdd l x) : y ∈ l ∨ y = x := by
  unfold setAdd at h
  split at h
  · exact Or.inl h
  · rcases List.mem_append.1 h with h | h
    · exact Or.inl h
    · exact Or.inr (List.mem_singleton.1 h)

theorem self_mem_setAdd {α} [DecidableEq α] (l : List α) (x : α) :
    x ∈ setAdd l x := by
  unfold setAdd
  split
  · assumption
  · exact List.mem_append.2 (Or.inr (List.mem_singleton.2 rfl))

theorem subset_setAdd {α} [DecidableEq α] {l : List α} {y : α} (x : α)
    (h : y ∈ l) : y ∈ setAdd l x := by
  unfold setAdd
  split
  · exact h
  · exact List.mem_append.2 (Or.inl h)

theorem consInv_addCon {m : List (List Var × List BExpr)} {c : BExpr}
    (h : ConsInv m) : ConsInv (addCon m c) := by
  induction m with
  | nil =>
      intro p hp r hr
      simp only [addCon, List.mem_singleton] at hp
      subst hp
      simp only [List.mem_singleton] at hr
      subst hr
      rfl
  | cons q rest ih =>
      have hq : ∀ r ∈ q.2, r.freeVarsB = q.1 := h q (List.mem_cons_self q rest)
      have hrest : ConsInv rest := fun p hp => h p (List.mem_cons_of_mem q hp)
      intro p hp r hr
      simp only [addCon] at hp
      split at hp
      · next heq =>
          rcases List.mem_cons.1 hp with hp | hp
          · subst hp
            rcases mem_setAdd hr with hr | hr
            · exact hq r hr
            · subst hr; exact heq.symm
          · exact hrest p hp r hr
      · rcases List.mem_cons.1 hp with hp | hp
        · subst hp; exact hq r hr
        · exact ih hrest p hp r hr

theorem foldl_pres {α β} (P : α → Prop) (f : α → β → α)
    (h : ∀ s x, P s → P (f s x)) :
    ∀ (l : List β) (s : α), P s → P (l.foldl f s)
  | [], _, hs => hs
  | x :: xs, s, hs => foldl_pres P f h xs (f s x) (h s x hs)

/-- The working-state invariant: the grouping map satisfies `ConsInv`. -/
def StInv (st : InitState) : Prop := ConsInv st.symbolsToCons

theorem pass1Step_stInv (asmOf : Var → List (String × Bool)) (st : InitState)
    (c : BExpr) (h : StInv st) : StInv (pass1Step asmOf st c) := by
  unfold pass1Step
  apply foldl_pres StInv
  · intro s v hs
    exact hs
  · exact consInv_addCon h

theorem pass2Pair_stInv (asmOf : Var → List (String × Bool)) (st : InitState)
    (v : Var) (s1 s2 : SymSet) (h : StInv st) :
    StInv (pass2Pair asmOf st v s1 s2) := by
  unfold pass2Pair
  split
  · split
    · exact consInv_addCon h
    · exact h
  · apply foldl_pres StInv
    · intro s ca hs
      apply foldl_pres StInv
      · intro s2 cs hs2
        exact hs2
      · exact consInv_addCon hs
    · exact h
  · exact h

theorem pass2_stInv (asmOf : Var → List (String × Bool)) (st : InitState)
    (h : StInv st) : StInv (pass2 asmOf st) := by
  unfold pass2
  apply foldl_pres StInv
  · intro s p hs
    apply foldl_pres StInv
    · intro s2 q hs2
      exact pass2Pair_stInv asmOf s2 p.1 q.1 q.2 hs2
    · exact hs
  · exact h

/-- Claim C2: For every input relation collection (and any assumption
map), every relation stored in a produced Validation has a
free-variable set exactly equal to the Validation's variable set: every
insertion into the grouping map — of a seed relation in Pass 1 or of a
derived relation in either branch of Pass 2 — is keyed by the inserted
relation's own free-variable set. -/
theorem c2_grouping_invariant (asmOf : Var → List (String × Bool))
    (cons : List BExpr) :
    ∀ val ∈ (constraintsInit asmOf cons).validations,
      ∀ r ∈ val.operations, r.freeVarsB = val.keys := by
  intro val hval r hr
  have hinv : StInv (pass2 asmOf (cons.foldl (pass1Step asmOf) ⟨[], [], []⟩)) := by
    refine pass2_stInv asmOf _ ?_
    apply foldl_pres StInv
    · exact fun s c hs => pass1Step_stInv asmOf s c hs
    · intro p hp
      simp at hp
  unfold constraintsInit at hval
  rcases List.mem_map.1 hval with ⟨p, hp, hpe⟩
  subst hpe
  exact hinv p hp r hr

unseal Rat.mul Rat.inv Rat.add Rat.sub in
/-- Claim C2 witness: The invariant instantiated at the doctest input: the
group of the seed relation `Eq(a, 2b)` is `{a, b}`. -/
theorem c2_grouping_invariant_witness :
    Validation.mk ["a", "b"] [conA2B] ∈
      (constraintsInit realAsm [conA2B, conCltB3]).validations ∧
    conA2B.freeVarsB = ["a", "b"] := by
  have hmem : Validation.mk ["a", "b"] [conA2B] ∈
      (constraintsInit realAsm [conA2B, conCltB3]).validations := by decide
  exact ⟨hmem,
    c2_grouping_invariant realAsm [conA2B, conCltB3] _ hmem conA2B (by decide)⟩

/-! ## The elimination table (C3) -/

/-- Claim C3: For classified atoms over the same placeholder whose
expressions are finite and whose difference is not a known constant (so
that the constructed relation does not auto-evaluate): two `"="` atoms
emit the equality `Eq(expr1, expr2)`; a `">"`-or-`"="` atom paired with
a `"<"`-or-`"="` atom (not both `"="`) emits `Lt(expr1, expr2)` exactly
when at least one side is strict and `Le(expr1, expr2)` when both are
non-strict; the mirrored pairing emits `Gt`/`Ge` likewise. -/
theorem c3_strictness_propagation (r1 r2 : DRel) (e1 e2 : LinExpr)
    (h1 : r1.expr = .fin e1) (h2 : r2.expr = .fin e2)
    (hnc : (e1.sub e2).coeffs ≠ []) :
    (r1.rel = .eqK → r2.rel = .eqK → elimPair r1 r2 = some (.relA (.eqR e1 e2))) ∧
    ((r1.rel = .gtK ∨ r1.rel = .eqK) → (r2.rel = .ltK ∨ r2.rel = .eqK) →
      ¬(r1.rel = .eqK ∧ r2.rel = .eqK) →
      elimPair r1 r2 =
        some (if r1.strict || r2.strict then .relA (.ltR e1 e2) else .relA (.leR e1 e2))) ∧
    ((r1.rel = .ltK ∨ r1.rel = .eqK) → (r2.rel = .gtK ∨ r2.rel = .eqK) →
      ¬(r1.rel = .eqK ∧ r2.rel = .eqK) →
      elimPair r1 r2 =
        some (if r1.strict || r2.strict then .relA (.gtR e1 e2) else .relA (.geR e1 e2))) := by
  obtain ⟨k1, x1, st1⟩ := r1
  obtain ⟨k2, x2, st2⟩ := r2
  simp only at h1 h2
  subst h1
  subst h2
  refine ⟨?_, ?_, ?_⟩ <;>
    cases k1 <;> cases k2 <;>
      simp [elimPair, eqAtom, ltLeAtom, gtGeAtom, mkEq, mkLt, mkLe, mkGt, mkGe, hnc]

unseal Rat.mul Rat.inv Rat.add Rat.sub in
/-- Claim C3 witness: A `"="` atom with expression `a` and a strict `"<"`
atom with expression `b` eliminate to the strict `Lt(a, b)`. -/
theorem c3_strictness_propagation_witness :
    (aE.sub bE).coeffs ≠ [] ∧
    elimPair ⟨.eqK, .fin aE, false⟩ ⟨.ltK, .fin bE, true⟩ =
      some (.relA (.ltR aE bE)) := by
  have hnc : (aE.sub bE).coeffs ≠ [] := by decide
  refine ⟨hnc, ?_⟩
  have h := (c3_strictness_propagation ⟨.eqK, .fin aE, false⟩ ⟨.ltK, .fin bE, true⟩
    aE bE rfl rfl hnc).2.1 (Or.inr rfl) (Or.inl rfl) (by decide)
  simpa using h

/-! ## The disjunction branch of Pass 2 (C4) -/

/-- `isinstance(arg, And)` for a disjunction branch. -/
def BBranch.isConj : BBranch → Bool
  | .bandBr _ => true
  | .batom _ => false

/-- The eliminated constraints contributed by one disjunction branch
(empty for a branch that is not a conjunction). -/
def branchConstraints (br : BBranch) (dummy : Var) (dom : SymDom) : List BAtom :=
  match br with
  | .bandBr l => (andDummyToConstraints l dummy dom).constraints
  | .batom _ => []

theorem collectOrBranches_go_spec (dummy : Var) (dom : SymDom) :
    ∀ (l : List BBranch) (acc : List BAtom),
      collectOrBranches.go dummy dom l acc =
        if l.all BBranch.isConj
        then acc ++ (l.map (fun br => branchConstraints br dummy dom)).flatten
        else [] := by
  intro l
  induction l with
  | nil => intro acc; simp [collectOrBranches.go]
  | cons br rest ih =>
      intro acc
      cases br with
      | batom a => simp [collectOrBranches.go, BBranch.isConj]
      | bandBr aargs =>
          simp only [collectOrBranches.go, ih, List.all_cons, BBranch.isConj,
            Bool.true_and, List.map_cons, List.flatten_cons, branchConstraints]
          split <;> simp [List.append_assoc]

/-- The symbol `x` as an expression. -/
def xE : LinExpr := LinExpr.ofVar "x"

/-- The symbol `y` as an expression. -/
def yE : LinExpr := LinExpr.ofVar "y"

/-- A conjunction branch `And(Eq(d, x), Eq(d, y))` over the placeholder:
it eliminates to the single constraint `Eq(x, y)`. -/
def brEqs : BBranch :=
  .bandBr [.relA (.eqR (LinExpr.ofVar dummyName) xE),
           .relA (.eqR (LinExpr.ofVar dummyName) yE)]

/-- A conjunction branch `And(x < d, y < d)` over the placeholder: both
atoms classify as `">"`, a pair the elimination table rejects, so the
branch reduces to no eliminated atom at all. -/
def brLows : BBranch :=
  .bandBr [.relA (.ltR xE (LinExpr.ofVar dummyName)),
           .relA (.ltR yE (LinExpr.ofVar dummyName))]

unseal Rat.mul Rat.inv Rat.add Rat.sub in
/-- Claim C4 counterexample: In the disjunction
`Or(And(d=x, d=y), And(x<d, y<d))` the second branch is a conjunction
that reduces to no eliminated atom, yet the `Or` branch of
`Constraints.__init__` still emits a new relation (built from the first
branch alone) instead of discarding the disjunction — refuting the
claim that a relation is emitted only if every branch reduces to at
least one eliminated atom. -/
theorem c4_or_branch_counterexample :
    (andDummyToConstraints
        [.relA (.ltR xE (LinExpr.ofVar dummyName)),
         .relA (.ltR yE (LinExpr.ofVar dummyName))] dummyName .reals).constraints = [] ∧
    orEmit [brEqs, brLows] dummyName .reals =
      some (.atomE (.relA (.eqR xE yE))) := by
  constructor
  · decide
  · decide

/-- Claim C4 amended: The `Or` branch of `Constraints.__init__` emits a
new (disjunctive) relation exactly when every branch of the disjunction
is a conjunction AND the concatenation of the branches' eliminated
atoms is nonempty; the emitted relation is the `Or` of that
concatenation.  A branch that is not a conjunction discards the whole
disjunction, while a conjunction branch that reduces to no atom merely
contributes nothing. -/
theorem c4_or_branch_amended (args : List BBranch) (dummy : Var) (dom : SymDom) :
    orEmit args dummy dom =
      if args.all BBranch.isConj then
        (if 0 < ((args.map (fun br => branchConstraints br dummy dom)).flatten).length
         then some (mkOrAtoms ((args.map (fun br => branchConstraints br dummy dom)).flatten))
         else none)
      else none := by
  unfold orEmit collectOrBranches
  rw [collectOrBranches_go_spec]
  split
  · simp
  · simp

/-! ## The classifier's unwrap rule (C5) -/

/-- Modelled from the claim's words: "repeatedly unwraps one level of
Intersection/Union that contains exactly one inner set" — an
`Intersection`/`Union` is unwrapped when it has exactly one argument,
to that argument (compound arguments are flattened, so one unwrap
reaches a basic set and the repetition stops). -/
def specUnwrap : SymSet → SymSet
  | .interS [b] => .basic b
  | .uniS [b] => .basic b
  | s => s

/-- The classifier as the claim describes it: the claimed unwrap rule
followed by the classification chain of `_DummyRelation.__init__`. -/
def specClassify (s : SymSet) : Except String DRel := classifyShape (specUnwrap s)

deriving instance DecidableEq for Except

/-- Claim C5 counterexample: On `Intersection(Reals, {x})` — a compound
set with two inner sets whose second argument is a one-element
`FiniteSet` — the code's classifier unwraps to `{x}` and classifies an
equality, whereas the claimed rule (unwrap only a compound set that
contains exactly one inner set) classifies nothing and reports the set
unanalyzable.  The code's loop condition is `len(args[1]) == 1`, a
condition on the second argument, not on the number of inner sets. -/
theorem c5_classifier_counterexample :
    classifySet (.interS [.intervalS .ninf .pinf true true, .finiteS [xE]]) =
      .ok ⟨.eqK, .fin xE, false⟩ ∧
    specClassify (.interS [.intervalS .ninf .pinf true true, .finiteS [xE]]) =
      .error "Could not analyze relation" ∧
    classifySet (.interS [.intervalS .ninf .pinf true true, .finiteS [xE]]) ≠
      specClassify (.interS [.intervalS .ninf .pinf true true, .finiteS [xE]]) := by
  refine ⟨by decide, by decide, by decide⟩

/-- Claim C5 amended: The classifier unwraps an `Intersection`/`Union`
whose second argument is a one-element `FiniteSet`, replacing the whole
set by that second argument; it classifies a one-element `FiniteSet` as
an equality (never strict), an `Interval` whose end is constant as
`">"` with the start as expression and the left-openness as strictness,
otherwise an `Interval` whose start is constant as `"<"` with the end
as expression and the right-openness as strictness, and reports
anything else as unanalyzable. -/
theorem c5_classifier_amended :
    (∀ (args : List BasicSet) (e : LinExpr), args[1]? = some (.finiteS [e]) →
        classifySet (.interS args) = .ok ⟨.eqK, .fin e, false⟩ ∧
        classifySet (.uniS args) = .ok ⟨.eqK, .fin e, false⟩) ∧
    (∀ e : LinExpr, classifySet (.basic (.finiteS [e])) = .ok ⟨.eqK, .fin e, false⟩) ∧
    (∀ (lo hi : Bnd) (lopen ropen : Bool), hi.isConstant = true →
        classifySet (.basic (.intervalS lo hi lopen ropen)) = .ok ⟨.gtK, lo, lopen⟩) ∧
    (∀ (lo hi : Bnd) (lopen ropen : Bool), hi.isConstant = false → lo.isConstant = true →
        classifySet (.basic (.intervalS lo hi lopen ropen)) = .ok ⟨.ltK, hi, ropen⟩) ∧
    (∀ (lo hi : Bnd) (lopen ropen : Bool), hi.isConstant = false → lo.isConstant = false →
        classifySet (.basic (.intervalS lo hi lopen ropen)) =
          .error "Could not analyze relation") := by
  refine ⟨?_, ?_, ?_, ?_, ?_⟩
  · intro args e h
    constructor <;> simp [classifySet, SymSet.unwrap, h, classifyShape]
  · intro e
    simp [classifySet, SymSet.unwrap, classifyShape]
  · intro lo hi lopen ropen hc
    simp [classifySet, SymSet.unwrap, classifyShape, hc]
  · intro lo hi lopen ropen hc1 hc2
    simp [classifySet, SymSet.unwrap, classifyShape, hc1, hc2]
  · intro lo hi lopen ropen hc1 hc2
    simp [classifySet, SymSet.unwrap, classifyShape, hc1, hc2]

/-- Claim C5 witness: The amended unwrap rule applied to
`Intersection(Reals, {x})`. -/
theorem c5_classifier_amended_witness :
    ([BasicSet.intervalS .ninf .pinf true true,
      BasicSet.finiteS [xE]][1]? = some (.finiteS [xE])) ∧
    classifySet (.interS [.intervalS .ninf .pinf true true, .finiteS [xE]]) =
      .ok ⟨.eqK, .fin xE, false⟩ :=
  ⟨rfl, (c5_classifier_amended.1 _ xE rfl).1⟩

/-! ## Graceful handling of unanalyzable relations (C6) -/

/-- A constraint is present in the grouping map under its own
free-variable-set key. -/
def MemCon (m : List (List Var × List BExpr)) (c : BExpr) : Prop :=
  ∃ p ∈ m, p.1 = c.freeVarsB ∧ c ∈ p.2

theorem memCon_addCon_self (m : List (List Var × List BExpr)) (c : BExpr) :
    MemCon (addCon m c) c := by
  induction m with
  | nil =>
      exact ⟨(c.freeVarsB, [c]), List.mem_singleton.2 rfl, rfl, List.mem_singleton.2 rfl⟩
  | cons q rest ih =>
      simp only [addCon]
      split
      · next heq =>
          exact ⟨(q.1, setAdd q.2 c), List.mem_cons_self _ _, heq, self_mem_setAdd q.2 c⟩
      · rcases ih with ⟨p, hp, hkey, hmem⟩
        exact ⟨p, List.mem_cons_of_mem _ hp, hkey, hmem⟩

theorem memCon_addCon_mono {m : List (List Var × List BExpr)} {c : BExpr}
    (c' : BExpr) (h : MemCon m c) : MemCon (addCon m c') c := by
  induction m with
  | nil => rcases h with ⟨p, hp, _, _⟩; cases hp
  | cons q rest ih =>
      rcases h with ⟨p, hp, hkey, hmem⟩
      simp only [addCon]
      split
      · next heq =>
          rcases List.mem_cons.1 hp with hp | hp
          · subst hp
            exact ⟨(p.1, setAdd p.2 c'), List.mem_cons_self _ _, hkey,
              subset_setAdd c' hmem⟩
          · exact ⟨p, List.mem_cons_of_mem _ hp, hkey, hmem⟩
      · rcases List.mem_cons.1 hp with hp | hp
        · subst hp
          exact ⟨p, List.mem_cons_self _ _, hkey, hmem⟩
        · rcases ih ⟨p, hp, hkey, hmem⟩ with ⟨p', hp', hkey', hmem'⟩
          exact ⟨p', List.mem_cons_of_mem _ hp', hkey', hmem'⟩

theorem pass1Step_memCon (asmOf : Var → List (String × Bool)) (st : InitState)
    (c0 c : BExpr) (h : MemCon st.symbolsToCons c) :
    MemCon (pass1Step asmOf st c0).symbolsToCons c := by
  unfold pass1Step
  apply foldl_pres (fun s : InitState => MemCon s.symbolsToCons c)
  · intro s v hs
    exact hs
  · exact memCon_addCon_mono c0 h

theorem pass1Step_memCon_self (asmOf : Var → List (String × Bool)) (st : InitState)
    (c : BExpr) : MemCon (pass1Step asmOf st c).symbolsToCons c := by
  unfold pass1Step
  apply foldl_pres (fun s : InitState => MemCon s.symbolsToCons c)
  · intro s v hs
    exact hs
  · exact memCon_addCon_self st.symbolsToCons c

theorem pass2Pair_memCon (asmOf : Var → List (String × Bool)) (st : InitState)
    (v : Var) (s1 s2 : SymSet) (c : BExpr) (h : MemCon st.symbolsToCons c) :
    MemCon (pass2Pair asmOf st v s1 s2).symbolsToCons c := by
  unfold pass2Pair
  split
  · split
    · exact memCon_addCon_mono _ h
    · exact h
  · apply foldl_pres (fun s : InitState => MemCon s.symbolsToCons c)
    · intro s ca hs
      apply foldl_pres (fun s : InitState => MemCon s.symbolsToCons c)
      · intro s2 cs hs2
        exact hs2
      · exact memCon_addCon_mono _ hs
    · exact h
  · exact h

theorem pass2_memCon (asmOf : Var → List (String × Bool)) (st : InitState)
    (c : BExpr) (h : MemCon st.symbolsToCons c) :
    MemCon (pass2 asmOf st).symbolsToCons c := by
  unfold pass2
  apply foldl_pres (fun s : InitState => MemCon s.symbolsToCons c)
  · intro s p hs
    apply foldl_pres (fun s : InitState => MemCon s.symbolsToCons c)
    · intro s2 q hs2
      exact pass2Pair_memCon asmOf s2 p.1 q.1 q.2 c hs2
    · exact hs
  · exact h

theorem pass1_foldl_memCon (asmOf : Var → List (String × Bool)) (c : BExpr) :
    ∀ (cons : List BExpr), c ∈ cons → ∀ st : InitState,
      MemCon (cons.foldl (pass1Step asmOf) st).symbolsToCons c := by
  intro cons
  induction cons with
  | nil => intro hc; cases hc
  | cons c0 rest ih =>
      intro hc st
      simp only [List.foldl_cons]
      rcases List.mem_cons.1 hc with h | h
      · subst h
        apply foldl_pres (fun s : InitState => MemCon s.symbolsToCons c)
        · intro s c1 hs
          exact pass1Step_memCon asmOf s c1 c hs
        · exact pass1Step_memCon_self asmOf st c
      · exact ih h (pass1Step asmOf st c0)

theorem filterMap_toOption_filter {α ε β : Type} (f : α → Except ε β) :
    ∀ l : List α,
      (l.map f).filterMap (fun c => c.toOption) =
        ((l.filter (fun a => (f a).toOption.isSome)).map f).filterMap
          (fun c => c.toOption) := by
  intro l
  induction l with
  | nil => rfl
  | cons a rest ih =>
      cases hfa : f a with
      | ok d =>
          have h1 : (f a).toOption = some d := by rw [hfa]; rfl
          simp only [List.map_cons, List.filterMap_cons, List.filter_cons, h1,
            Option.isSome_some, if_pos, ih]
      | error m =>
          have h1 : (f a).toOption = none := by rw [hfa]; rfl
          simp only [List.map_cons, List.filterMap_cons, List.filter_cons, h1,
            Option.isSome_none, Bool.false_eq_true, if_neg, ih]
          simp

theorem useful_skips_errors (dummy : Var) (dom : SymDom) (args : List BAtom) :
    (args.map (fun a => dummyRelation a dummy dom)).filterMap (fun c => c.toOption) =
      (((args.filter (fun a => (dummyRelation a dummy dom).toOption.isSome)).map
        (fun a => dummyRelation a dummy dom)).filterMap (fun c => c.toOption)) :=
  filterMap_toOption_filter (fun a => dummyRelation a dummy dom) args

/-- Claim C6: Unanalyzable relations degrade gracefully: (1) every input
relation is present, under its own free-variable-set key, in the
produced Validation set (grouping happens before any solving and
nothing removes it, so construction succeeds regardless of
classification failures); (2) each atom whose classification raises
`ValueError` contributes its message to the warnings of
`_and_dummy_to_constraints`; (3) the emitted constraint set is exactly
the one obtained from the classifiable atoms alone (the failing atom is
skipped for pairwise elimination). -/
theorem c6_unanalyzable_graceful (asmOf : Var → List (String × Bool))
    (cons : List BExpr) (args : List BAtom) (dummy : Var) (dom : SymDom) :
    (∀ c ∈ cons, ∃ val ∈ (constraintsInit asmOf cons).validations,
        val.keys = c.freeVarsB ∧ c ∈ val.operations) ∧
    (∀ a ∈ args, ∀ msg, dummyRelation a dummy dom = .error msg →
        msg ∈ (andDummyToConstraints args dummy dom).warnings) ∧
    ((andDummyToConstraints args dummy dom).constraints =
      (andDummyToConstraints
        (args.filter (fun a => (dummyRelation a dummy dom).toOption.isSome))
        dummy dom).constraints) := by
  refine ⟨?_, ?_, ?_⟩
  · intro c hc
    have hmem : MemCon
        (pass2 asmOf (cons.foldl (pass1Step asmOf) ⟨[], [], []⟩)).symbolsToCons c :=
      pass2_memCon asmOf _ c (pass1_foldl_memCon asmOf c cons hc ⟨[], [], []⟩)
    rcases hmem with ⟨p, hp, hkey, hcmem⟩
    exact ⟨⟨p.1, p.2⟩, List.mem_map.2 ⟨p, hp, rfl⟩, hkey, hcmem⟩
  · intro a ha msg herr
    have h1 : Except.error msg ∈ args.map (fun a => dummyRelation a dummy dom) :=
      List.mem_map.2 ⟨a, ha, herr⟩
    exact List.mem_filterMap.2 ⟨Except.error msg, h1, rfl⟩
  · exact congrArg
      (fun useful => List.foldl
        (fun acc p =>
          match elimPair p.1 p.2 with
          | some c => setAdd acc c
          | none => acc)
        [] (combinations2 useful))
      (useful_skips_errors dummy dom args)

unseal Rat.mul Rat.inv Rat.add Rat.sub in
/-- Claim C6 witness: The dummy-free atom `x < y` cannot be classified
(its message is warned and it is skipped), while the input relation
`Eq(a, 2b)` still appears in the Validation group keyed by `{a, b}`. -/
theorem c6_unanalyzable_graceful_witness :
    conA2B ∈ [conA2B] ∧
    (∃ val ∈ (constraintsInit realAsm [conA2B]).validations,
        val.keys = conA2B.freeVarsB ∧ conA2B ∈ val.operations) ∧
    dummyRelation (.relA (.ltR xE yE)) dummyName .reals =
      .error "Could not analyze relation" ∧
    "Could not analyze relation" ∈
      (andDummyToConstraints
        [.relA (.ltR xE yE), .relA (.eqR (LinExpr.ofVar dummyName) xE)]
        dummyName .reals).warnings := by
  have h := c6_unanalyzable_graceful realAsm [conA2B]
    [.relA (.ltR xE yE), .relA (.eqR (LinExpr.ofVar dummyName) xE)] dummyName .reals
  refine ⟨List.mem_singleton.2 rfl, h.1 conA2B (List.mem_singleton.2 rfl), by decide, ?_⟩
  exact h.2.1 (.relA (.ltR xE yE)) (by decide) "Could not analyze relation" (by decide)

/-! ## Imputation duplicates (C7) -/

/-- The imputation `Imputation({b}, a, 2*b)` recorded from `Eq(a, 2b)`. -/
def impBA : Imputation := ⟨["b"], "a", ⟨[("b", 2)], 0⟩⟩

/-- The imputation `Imputation({a}, b, a/2)` recorded from `Eq(a, 2b)`. -/
def impAB : Imputation := ⟨["a"], "b", ⟨[("a", 1/2)], 0⟩⟩

unseal Rat.mul Rat.inv Rat.add Rat.sub in
/-- Claim C7 counterexample: With the relation `Eq(a, 2b)` supplied twice,
the candidate `Imputation({b}, a, 2*b)` is recorded twice with an
identical (source, target, expression) triple, and the returned
imputation collection keeps both entries — they do not collapse into
one entry. -/
theorem c7_imputation_duplicates_counterexample :
    (get_imputations (constraintsInit realAsm [conA2B, conA2B])).count impBA = 2 ∧
    ¬ ((get_imputations (constraintsInit realAsm [conA2B, conA2B])).count impBA ≤ 1) := by
  constructor
  · decide
  · decide

unseal Rat.mul Rat.inv Rat.add Rat.sub in
/-- Claim C7 amended: The imputation collection is a plain list that
preserves every recorded candidate as a separate entry: identical
(source, target, expression) triples appear as duplicate equal entries
(equality is the value type's field-wise equality), and only the
set-based Validation side deduplicates.  Candidates with differing
triples remain distinct. -/
theorem c7_imputation_duplicates_amended :
    get_imputations (constraintsInit realAsm [conA2B, conA2B]) =
      [impBA, impAB, impBA, impAB] ∧
    impBA ≠ impAB := by
  constructor
  · decide
  · decide

/-! ## Record validation (C8, C10) -/

theorem lookup_filter_self (k : Var) :
    ∀ m : OMap, (m.filter (fun p => p.1 ≠ k)).lookup k = none := by
  intro m
  induction m with
  | nil => rfl
  | cons p rest ih =>
      by_cases h : p.1 = k
      · simpa [List.filter_cons, h] using ih
      · have hne : (k == p.1) = false := by
          simp [Ne.symm h]
        simpa [List.filter_cons, h, List.lookup, hne] using ih

/-- Claim C8: For every Validation and mapping: if any member variable's
value is absent (`mapping.get` is `None`) the call returns silently and
vacuously — the relations are not evaluated; otherwise every relation
is evaluated under the mapped values, no error is raised exactly when
all relations are satisfied, and a raised error reports exactly the
unsatisfied relations together with the member values. -/
theorem c8_validate_mapping (v : Validation) (m : OMap) :
    ((∃ k ∈ v.keys, mget m k = none) → validate_mapping v m = none) ∧
    ((∀ k ∈ v.keys, (mget m k).isSome) →
      (validate_mapping v m = none ↔
        ∀ op ∈ v.operations, op.holds (mrho m) = true) ∧
      (∀ err, validate_mapping v m = some err →
        err.unsatisfied_booleans =
          v.operations.filter (fun op => !(op.holds (mrho m))) ∧
        err.values = v.keys.map (fun k => (k, mget m k)))) := by
  constructor
  · rintro ⟨k, hk, hnone⟩
    unfold validate_mapping
    rw [if_pos]
    exact List.any_eq_true.2 ⟨k, hk, by simp [hnone]⟩
  · intro hall
    have hcond : (v.keys.any fun k => (mget m k).isNone) = false := by
      rw [List.any_eq_false]
      intro k hk
      have h2 := hall k hk
      cases hmk : mget m k with
      | none => rw [hmk] at h2; cases h2
      | some q => simp
    constructor
    · unfold validate_mapping
      rw [hcond]
      simp only [Bool.false_eq_true, if_false]
      split
      · next hemp =>
          simp only [true_iff]
          intro op hop
          have := List.filter_eq_nil_iff.1 (List.isEmpty_iff.1 hemp) op hop
          simpa using this
      · next hemp =>
          constructor
          · intro hcontra
            exact absurd hcontra (by simp)
          · intro hops
            exfalso
            apply hemp
            rw [List.isEmpty_iff, List.filter_eq_nil_iff]
            intro op hop
            simp [hops op hop]
    · intro err herr
      unfold validate_mapping at herr
      rw [hcond] at herr
      simp only [Bool.false_eq_true, if_false] at herr
      split at herr
      · exact absurd herr (by simp)
      · have heq := Option.some.inj herr
        rw [← heq]
        exact ⟨rfl, rfl⟩

/-- The Validation `({a, b}, {a < b})` used by the record-consumer
tests. -/
def vAB : Validation := ⟨["a", "b"], [.atomE (.relA (.ltR aE bE))]⟩

/-- The invalid mapping `{a: 10, b: 1}`. -/
def mBad10 : OMap := [("a", some 10), ("b", some 1)]

unseal Rat.mul Rat.inv Rat.add Rat.sub in
/-- Claim C8 witness: For the fully-present mapping `{a: 10, b: 1}` the
evaluated branch of `validate_mapping` is reached and characterized. -/
theorem c8_validate_mapping_witness :
    (∀ k ∈ vAB.keys, (mget mBad10 k).isSome) ∧
    (validate_mapping vAB mBad10 = none ↔
      ∀ op ∈ vAB.operations, op.holds (mrho mBad10) = true) := by
  have h := (c8_validate_mapping vAB mBad10).2 (by decide)
  exact ⟨by decide, h.1⟩

/-- Claim C10: A key present in the mapping but bound to `None` behaves
exactly like an absent key: for every Validation having such a member
variable, `validate_mapping` skips validation and reports the mapping
vacuously valid — both on the mapping itself and on the mapping with
the `None`-valued entry removed — whatever the other values are. -/
theorem c10_none_value_skips (v : Validation) (m : OMap) (k : Var)
    (hk : k ∈ v.keys) (hv : m.lookup k = some none) :
    validate_mapping v m = none ∧
    validate_mapping v (m.filter (fun p => p.1 ≠ k)) = none := by
  have hmg : mget m k = none := by
    unfold mget
    rw [hv]
  have hmg2 : mget (m.filter (fun p => p.1 ≠ k)) k = none := by
    unfold mget
    rw [lookup_filter_self k m]
  constructor
  · unfold validate_mapping
    rw [if_pos]
    exact List.any_eq_true.2 ⟨k, hk, by rw [hmg]; rfl⟩
  · unfold validate_mapping
    rw [if_pos]
    exact List.any_eq_true.2 ⟨k, hk, by rw [hmg2]; rfl⟩

unseal Rat.mul Rat.inv Rat.add Rat.sub in
/-- Claim C10 witness: For `{a: 4, b: None}` against `({a, b}, {a < b})`,
validation is skipped. -/
theorem c10_none_value_skips_witness :
    ("b" ∈ vAB.keys) ∧
    (([("a", some 4), ("b", none)] : OMap).lookup "b" = some none) ∧
    validate_mapping vAB [("a", some 4), ("b", none)] = none := by
  have h := c10_none_value_skips vAB [("a", some 4), ("b", none)] "b"
    (by decide) (by decide)
  exact ⟨by decide, by decide, h.1⟩

/-! ## The domain resolver and sign assumptions (C9) -/

/-- Modelled from sympy: the assumption dictionary (`assumptions0`) of a
symbol declared `positive=True` in the real domain, restricted to the
keys `_assumption_domain` recognizes.  sympy's assumption closure
determines `real=True`, `complex=True`, `positive=True` and
`negative=False` for such a symbol (the dictionary order is one
possible iteration order; the resolved set is order-independent). -/
def positiveRealAssumptions : List (String × Bool) :=
  [("real", true), ("complex", true), ("positive", true), ("negative", false)]

theorem memD_intersectD_right (a b : SymDom) (z : ℂ)
    (h : (a.intersectD b).memD z) : b.memD z := by
  unfold SymDom.intersectD at h
  split at h
  · exact h
  · exact trivial
  · next d1 d2 _ _ =>
      split at h
      · next heq => rw [← heq]; exact h
      · exact h.2

theorem memD_intersectD_left (a b : SymDom) (z : ℂ)
    (h : (a.intersectD b).memD z) : a.memD z := by
  unfold SymDom.intersectD at h
  split at h
  · exact trivial
  · exact h
  · next d1 d2 _ _ =>
      split at h
      · exact h
      · exact h.1

theorem memD_domStep (init : SymDom) (p : String × Bool) (z : ℂ)
    (h : (domStep init p).memD z) : init.memD z := by
  unfold domStep at h
  split at h
  · exact h
  · split at h
    · exact memD_intersectD_left _ _ _ h
    · exact h.1

theorem memD_fold_init (z : ℂ) :
    ∀ (asms : List (String × Bool)) (init : SymDom),
      (asms.foldl domStep init).memD z → init.memD z := by
  intro asms
  induction asms with
  | nil => intro init h; exact h
  | cons p rest ih =>
      intro init h
      exact memD_domStep init p z (ih (domStep init p) h)

theorem positive_bound_aux (z : ℂ) :
    ∀ (asms : List (String × Bool)) (init : SymDom),
      ("positive", true) ∈ asms →
      (asms.foldl domStep init).memD z → z.im = 0 ∧ 0 ≤ z.re := by
  intro asms
  induction asms with
  | nil => intro init hmem; cases hmem
  | cons p rest ih =>
      intro init hmem h
      rcases List.mem_cons.1 hmem with hp | hp
      · subst hp
        have h1 : (domStep init ("positive", true)).memD z :=
          memD_fold_init z rest _ h
        have h2 : SymDom.memD .nonneg z := by
          unfold domStep assumption_domain at h1
          exact memD_intersectD_right _ _ _ h1
        exact h2
      · exact ih (domStep init p) hp h

/-- Claim C9 counterexample: The interval the resolver attaches to the
`positive` assumption does contain zero, but for a variable declared
positive the assumption closure also declares `negative=False`, and the
complement step for that entry removes `Interval(-oo, 0]` — zero
included — from the running domain: zero is not in the resolved domain,
so solving is bounded to the strictly positive part, not the
non-negative part. -/
theorem c9_positive_domain_counterexample :
    SymDom.memD .nonneg 0 ∧
    ¬ (get_symbol_domain positiveRealAssumptions).memD 0 := by
  constructor
  · exact ⟨by simp, by simp⟩
  · intro h
    have hrepr : get_symbol_domain positiveRealAssumptions =
        .complD (.interD .reals .nonneg) .nonpos := by decide
    rw [hrepr] at h
    exact h.2 ⟨by simp, by simp⟩

/-- Claim C9 amended: The resolver dictionary maps `positive` to
`Interval(0, oo)` and `negative` to `Interval(-oo, 0]`, both containing
zero, and any assumption list declaring `positive` bounds the resolved
domain inside the non-negative reals; but for a variable declared
positive, the sympy assumption closure adds `negative=False`, whose
complement step excludes zero: the resolved domain is exactly the
strictly positive reals. -/
theorem c9_positive_domain_amended :
    (assumption_domain "positive" = some .nonneg ∧
      assumption_domain "negative" = some .nonpos) ∧
    (SymDom.memD .nonneg 0 ∧ SymDom.memD .nonpos 0) ∧
    (∀ (asms : List (String × Bool)) (z : ℂ), ("positive", true) ∈ asms →
      (get_symbol_domain asms).memD z → z.im = 0 ∧ 0 ≤ z.re) ∧
    (∀ z : ℂ, (get_symbol_domain positiveRealAssumptions).memD z ↔
      z.im = 0 ∧ 0 < z.re) := by
  refine ⟨⟨rfl, rfl⟩, ⟨⟨by simp, by simp⟩, ⟨by simp, by simp⟩⟩, ?_, ?_⟩
  · intro asms z hmem h
    exact positive_bound_aux z asms .complexes hmem h
  · intro z
    have hrepr : get_symbol_domain positiveRealAssumptions =
        .complD (.interD .reals .nonneg) .nonpos := by decide
    rw [hrepr]
    constructor
    · rintro ⟨⟨him, _, hre⟩, hnot⟩
      refine ⟨him, ?_⟩
      rcases lt_or_eq_of_le hre with h | h
      · exact h
      · exact absurd ⟨him, le_of_eq h.symm⟩ hnot
    · rintro ⟨him, hre⟩
      exact ⟨⟨him, him, le_of_lt hre⟩, fun hc => absurd hc.2 (not_le.2 hre)⟩

/-- Claim C9 witness: The subset bound applied at `z = 1` for the
positive-symbol assumption closure. -/
theorem c9_positive_domain_witness :
    ("positive", true) ∈ positiveRealAssumptions ∧
    ((1 : ℂ).im = 0 ∧ 0 ≤ (1 : ℂ).re) := by
  have hmem : ("positive", true) ∈ positiveRealAssumptions := by decide
  have hz : (get_symbol_domain positiveRealAssumptions).memD 1 := by
    have hrepr : get_symbol_domain positiveRealAssumptions =
        .complD (.interD .reals .nonneg) .nonpos := by decide
    rw [hrepr]
    refine ⟨⟨Complex.one_im, Complex.one_im, by norm_num [Complex.one_re]⟩, ?_⟩
    rintro ⟨_, hc⟩
    norm_num at hc
  exact ⟨hmem, (c9_positive_domain_amended.2.2.1 positiveRealAssumptions 1 hmem hz)⟩

end SymC
